import Mathlib

/-!
Shallow embedding of the repository's two Python modules
(`templates/python_section_1.py` and `submissions/python_section_2 (1).py`)
and proofs about the claims of its specification.

Modelling conventions:
* Python `int` is `Int` (or `Nat` where the source value is a length/index),
  Python `float` arithmetic is modelled over `ℚ` (the claims under study do
  not depend on rounding), and the float `NaN` is a distinct marker value.
* pandas DataFrames are lists of rows; where column insertion (mutation of
  the caller's frame) matters, a row is an association list from column
  name to value so that added columns are observable.
* Fallible operations return `Except String`.
-/

namespace MapUpDA

/-! ### Python `range(0, stop, step)` (used by `reverse_by_n_elements`)

`range` raises `ValueError` when the step is zero; with a negative step and
`start = 0 ≤ stop` it is empty; with a positive step it yields
`0, step, 2*step, ...` while below `stop` (that is `⌈stop/step⌉` terms). -/
def pyRange0 (stop : Nat) (step : Int) : Except String (List Nat) :=
  if step = 0 then .error "range() arg 3 must not be zero"
  else if step < 0 then .ok []
  else .ok (List.range' 0 ((stop + (step.toNat - 1)) / step.toNat) step.toNat)

/-! ### `reverse_by_n_elements` (python_section_1.py, lines 8-12)

`[item for group in (lst[i:i + n] for i in range(0, len(lst), n))
       for item in reversed(group)]`
A slice `lst[i:i+n]` with `0 ≤ i` and `n ≥ 1` is `(lst.drop i).take n`. -/
def reverse_by_n_elements (lst : List Int) (n : Int) : Except String (List Int) :=
  match pyRange0 lst.length n with
  | .error e => .error e
  | .ok idxs => .ok ((idxs.map (fun i => ((lst.drop i).take n.toNat).reverse)).flatten)

/-- Chunking `lst` into contiguous pieces of size `k` (`k ≥ 1` intended);
reference recursion used to reason about the slice-based source form. -/
def chunksOf (k : Nat) : List Int → List (List Int)
  | [] => []
  | a :: rest => (a :: rest.take (k - 1)) :: chunksOf k (rest.drop (k - 1))
termination_by l => l.length
decreasing_by
  simp only [List.length_cons, List.length_drop]
  omega

/-! ### `group_by_length` (python_section_1.py, lines 15-25)

Insertion-ordered dict from string length to the list of strings of that
length, in first-seen order; modelled as an association list where a new
key is appended at the end and an existing key's group is appended to. -/
def upsertLen : List (Nat × List String) → String → List (Nat × List String)
  | [], s => [(s.length, [s])]
  | (k, g) :: rest, s =>
    if k = s.length then (k, g ++ [s]) :: rest else (k, g) :: upsertLen rest s

def group_by_length (lst : List String) : List (Nat × List String) :=
  lst.foldl upsertLen []

/-! ### `rotate_and_multiply_matrix` (python_section_1.py, lines 108-123)

`rotated = [list(row) for row in zip(*matrix[::-1])]`, then each
`rotated[i][j]` is multiplied by `i + j` (post-rotation indices), the inner
loop running over `range(len(rotated[0]))`. `zip` truncates to the shortest
row and yields nothing when given no rows or an empty row. -/
def pyZipGo : List Int → List (List Int) → List (List Int)
  | [], _ => []
  | a :: as, rest =>
    if rest.any (·.isEmpty) then []
    else (a :: rest.map (·.headI)) :: pyZipGo as (rest.map (·.tail))

def pyZip : List (List Int) → List (List Int)
  | [] => []
  | r :: rest => pyZipGo r rest

/-- The doubly indexed scaling loop `rotated[i][j] * (i + j)`; `i` is the
row index threaded through the recursion, `w = len(rotated[0])` the width
used by the inner loop. -/
def scaleRows (w : Nat) : Nat → List (List Int) → List (List Int)
  | _, [] => []
  | i, row :: rs =>
    ((List.range w).map (fun j => row.getD j 0 * (Int.ofNat i + Int.ofNat j))) :: scaleRows w (i + 1) rs

def rotate_and_multiply_matrix (matrix : List (List Int)) : List (List Int) :=
  let rotated := pyZip matrix.reverse
  scaleRows ((rotated.headD []).length) 0 rotated

/-! ### `time_check` (python_section_1.py, lines 126-136)

Timestamps are minutes; one day is 1440 minutes, seven days 10080.  The
groupby produces one boolean per distinct `(id, id_2)` key, the group's
rows being the input rows with that key in input order, and the boolean is
the source lambda
`(min ≤ min + timedelta(days=7)) and (max ≥ min + timedelta(days=1))`. -/
structure TRow where
  id : Int
  id_2 : Int
  timestamp : Int
deriving DecidableEq, Repr

def tKey (r : TRow) : Int × Int := (r.id, r.id_2)

def groupBool : List Int → Bool
  | [] => false
  | t :: ts =>
    let mn := ts.foldl min t
    let mx := ts.foldl max t
    decide (mn ≤ mn + 7 * 1440) && decide (mx ≥ mn + 1440)

def time_check (df : List TRow) : List ((Int × Int) × Bool) :=
  ((df.map tKey).dedup).map
    (fun k => (k, groupBool ((df.filter (fun r => tKey r = k)).map TRow.timestamp)))

/-! ### Cell values and DataFrames for `python_section_2 (1).py`

A cell is a number (float/int modelled over `ℚ`), the float `NaN`, a
string, a timestamp (minutes since an epoch) or a time-of-day (minutes
since midnight).  A row is an association list from column name to value
(pandas keeps column insertion order; assigning a fresh column appends it,
assigning an existing one overwrites in place), so mutation of the
caller's frame is observable. -/
inductive Val where
  | num (q : ℚ)
  | nan
  | str (s : String)
  | ts (t : Int)
  | tod (t : Nat)
deriving DecidableEq, Repr

abbrev Row := List (String × Val)

abbrev DataFrame := List Row

deriving instance DecidableEq for Except

def getCol (r : Row) (c : String) : Option Val :=
  r.lookup c

def hasCol (r : Row) (c : String) : Bool :=
  (r.map Prod.fst).contains c

/-- Column assignment `r[c] = v`: overwrite in place when the column
exists (column names are unique in a pandas frame), append at the end
otherwise. -/
def setCol : Row → String → Val → Row
  | [], c, v => [(c, v)]
  | (k, w) :: rest, c, v =>
    if k = c then (c, v) :: rest else (k, w) :: setCol rest c v

/-- Row-wise fallible map (a pandas column assignment applies its
expression to every row; the first failing row raises). -/
def mapE (f : Row → Except String Row) : DataFrame → Except String DataFrame
  | [] => .ok []
  | r :: rs =>
    match f r, mapE f rs with
    | .ok r', .ok rs' => .ok (r' :: rs')
    | .error e, _ => .error e
    | .ok _, .error e => .error e

/-! ### `calculate_toll_rate` (python_section_2 (1).py, lines 74-94)

`toll_rates = {'car': 1.0, 'truck': 1.5, 'bus': 1.2}`;
`df['vehicle_type'] = df['id_start'].map(toll_rates)` — `Series.map` with a
dict yields `NaN` for any value absent from the dict (in particular for
any non-string `id_start`); then
`df['toll_rate'] = df['distance'] * df['vehicle_type']` (multiplication
with `NaN` propagates `NaN`, non-numeric operands raise);
finally the function returns `df[['id_start', 'id_end', 'toll_rate']]`.
The result is the pair (returned projection, caller's frame after the
call), making the in-place column assignments visible. -/
def toll_rates : List (String × ℚ) :=
  [("car", 1), ("truck", 3/2), ("bus", 6/5)]

def mapTollRates (v : Val) : Val :=
  match v with
  | .str s =>
    match toll_rates.lookup s with
    | some m => .num m
    | none => .nan
  | _ => .nan

def valMulE (a b : Val) : Except String Val :=
  match a, b with
  | .num x, .num y => .ok (.num (x * y))
  | .num _, .nan => .ok .nan
  | .nan, .num _ => .ok .nan
  | .nan, .nan => .ok .nan
  | _, _ => .error "unsupported operand type for *"

def projectTollCols (r : Row) : Except String Row :=
  match getCol r "id_start", getCol r "id_end", getCol r "toll_rate" with
  | some a, some b, some c => .ok [("id_start", a), ("id_end", b), ("toll_rate", c)]
  | _, _, _ => .error "KeyError"

def tollStep1 (r : Row) : Except String Row :=
  match getCol r "id_start" with
  | some v => .ok (setCol r "vehicle_type" (mapTollRates v))
  | none => .error "KeyError: id_start"

def tollStep2 (r : Row) : Except String Row :=
  match getCol r "distance", getCol r "vehicle_type" with
  | some a, some b => (valMulE a b).map (setCol r "toll_rate")
  | _, _ => .error "KeyError: distance"

def calculate_toll_rate (df : DataFrame) : Except String (DataFrame × DataFrame) :=
  match mapE tollStep1 df with
  | .error e => .error e
  | .ok df1 =>
    match mapE tollStep2 df1 with
    | .error e => .error e
    | .ok df2 =>
      match mapE projectTollCols df2 with
      | .error e => .error e
      | .ok res => .ok (res, df2)

/-! ### `calculate_time_based_toll_rates` (python_section_2 (1).py, lines 96-117)

The boundary dict, in declaration order, with its `'HH:MM'` keys parsed by
`pd.to_datetime(...).time()` and rendered here in minutes:
`00:00 → 0.5, 06:00 → 1.0, 12:00 → 1.5, 18:00 → 2.0, 23:59 → 1.0`.
The per-record lambda is `next((rate for time, rate in items if x >= time),
1.0)`: the rate of the first boundary `≤ x`, defaulting to `1.0`. -/
def time_based_rates : List (Nat × ℚ) :=
  [(0, 1/2), (6 * 60, 1), (12 * 60, 3/2), (18 * 60, 2), (23 * 60 + 59, 1)]

def timeBasedRate (x : Nat) : ℚ :=
  ((time_based_rates.find? (fun p => decide (x ≥ p.1))).map Prod.snd).getD 1

/-- `pd.to_datetime(ts).dt.time`: time-of-day of a timestamp. -/
def toTimeOfDay (v : Val) : Except String Val :=
  match v with
  | .ts t => .ok (.tod (t.emod 1440).toNat)
  | _ => .error "to_datetime: invalid argument"

def timeStep1 (r : Row) : Except String Row :=
  match getCol r "timestamp" with
  | some v => (toTimeOfDay v).map (setCol r "time")
  | none => .error "KeyError: timestamp"

def timeStep2 (r : Row) : Except String Row :=
  match getCol r "time" with
  | some (.tod x) => .ok (setCol r "toll_rate" (.num (timeBasedRate x)))
  | some _ => .error "apply: not a time"
  | none => .error "KeyError: time"

def calculate_time_based_toll_rates (df : DataFrame) :
    Except String (DataFrame × DataFrame) :=
  match mapE timeStep1 df with
  | .error e => .error e
  | .ok df1 =>
    match mapE timeStep2 df1 with
    | .error e => .error e
    | .ok df2 =>
      match mapE projectTollCols df2 with
      | .error e => .error e
      | .ok res => .ok (res, df2)

/-! ### `find_ids_within_ten_percentage_threshold` (python_section_2 (1).py, lines 54-72)

Rows of the unrolled frame are typed records here (this function only
reads columns, it adds none).  `Series.mean()` of an empty selection is
`NaN` (`none`); comparisons against `NaN` are `False`; `groupby('id_start')`
sorts the distinct keys ascending; `reset_index` turns the filtered
per-key means back into records. -/
structure URow where
  id_start : Int
  id_end : Int
  distance : ℚ
deriving DecidableEq, Repr

def meanQ (l : List ℚ) : Option ℚ :=
  if l.isEmpty then none else some (l.sum / l.length)

def groupMean (df : List URow) (k : Int) : Option ℚ :=
  meanQ ((df.filter (fun r => r.id_start = k)).map URow.distance)

/-- `≤` on float cells: any comparison involving `NaN` is `False`. -/
def optLeB : Option ℚ → Option ℚ → Bool
  | some a, some b => decide (a ≤ b)
  | _, _ => false

def find_ids_within_ten_percentage_threshold (df : List URow) (reference_id : Int) :
    List (Int × ℚ) :=
  let referenceAvg := groupMean df reference_id
  let lowerBound := referenceAvg.map (· * (9/10))
  let upperBound := referenceAvg.map (· * (11/10))
  let keys := ((df.map URow.id_start).toFinset).sort (· ≤ ·)
  let avgs := keys.map (fun k => (k, groupMean df k))
  (avgs.filter (fun p => optLeB lowerBound p.2 && optLeB p.2 upperBound)).filterMap
    (fun p => p.2.map (fun m => (p.1, m)))

/-! ### `find_all_dates` (python_section_1.py, lines 53-81)

The three raw patterns are `\b\d{2}-\d{2}-\d{4}\b`, `\b\d{1,2}/\d{1,2}/\d{4}\b`
and `\b\d{4}\.\d{1,2}\.\d{1,2}\b`.  `\d` and `\w` are modelled at their
ASCII meaning (`0`-`9`, letters/digits/underscore).  Each pattern is
"digits, separator, digits, separator, digits" with fixed or 1-2 digit
segments, a leading and a trailing word boundary; the first segment
character is always a digit, so the leading `\b` holds exactly when the
preceding character is absent or a non-word character, and the trailing
`\b` holds exactly when the following character is absent or non-word.
A `\d{1,2}` quantifier is greedy with backtracking, which for these
patterns is: try the 2-digit segment split first, then the 1-digit one. -/
def isWordChar (c : Char) : Bool :=
  c.isAlphanum || c = '_'

/-- Consume exactly `k` digit characters. -/
def takeDigitsN (k : Nat) (cs : List Char) : Option (List Char × List Char) :=
  if (cs.take k).length = k && (cs.take k).all Char.isDigit then
    some (cs.take k, cs.drop k)
  else none

/-- Consume the separator character. -/
def expectSep (sep : Char) (cs : List Char) : Option (List Char) :=
  match cs with
  | c :: rest => if c = sep then some rest else none
  | _ => none

/-- The trailing `\b`: the rest must start with a non-word character (or
be empty); the last matched character is always a digit, hence a word
character. -/
def checkBoundary (cs : List Char) : Bool :=
  match cs with
  | [] => true
  | x :: _ => !isWordChar x

/-- One attempt of a three-segment pattern `\d{l1} sep \d{l2} sep \d{l3}\b`
at the current position; returns the matched characters and the rest. -/
def seg3 (sep : Char) (l1 l2 l3 : Nat) (cs : List Char) : Option (List Char × List Char) :=
  match takeDigitsN l1 cs with
  | none => none
  | some (a, r1) =>
    match expectSep sep r1 with
    | none => none
    | some r2 =>
      match takeDigitsN l2 r2 with
      | none => none
      | some (b, r3) =>
        match expectSep sep r3 with
        | none => none
        | some r4 =>
          match takeDigitsN l3 r4 with
          | none => none
          | some (c, r5) =>
            if checkBoundary r5 then some (a ++ sep :: (b ++ sep :: c), r5) else none

def p1m (cs : List Char) : Option (List Char × List Char) :=
  seg3 '-' 2 2 4 cs

def p2m (cs : List Char) : Option (List Char × List Char) :=
  match seg3 '/' 2 2 4 cs with
  | some r => some r
  | none =>
    match seg3 '/' 2 1 4 cs with
    | some r => some r
    | none =>
      match seg3 '/' 1 2 4 cs with
      | some r => some r
      | none => seg3 '/' 1 1 4 cs

def p3m (cs : List Char) : Option (List Char × List Char) :=
  match seg3 '.' 4 2 2 cs with
  | some r => some r
  | none =>
    match seg3 '.' 4 2 1 cs with
    | some r => some r
    | none =>
      match seg3 '.' 4 1 2 cs with
      | some r => some r
      | none => seg3 '.' 4 1 1 cs

/-- `re.findall`: scan left to right, at each position whose preceding
character admits a word boundary try the pattern; on success record the
match and resume after it, otherwise advance one character.  The fuel is
only a structural-recursion device; `length + 1` steps always suffice
because every recursive call drops at least one character. -/
def findAllAux (m : List Char → Option (List Char × List Char)) :
    Nat → Option Char → List Char → List (List Char)
  | 0, _, _ => []
  | _ + 1, _, [] => []
  | fuel + 1, prev, c :: rest =>
    let boundaryOk := match prev with | none => true | some p => !isWordChar p
    if boundaryOk then
      match m (c :: rest) with
      | some (mat, after) => mat :: findAllAux m fuel mat.getLast? after
      | none => findAllAux m fuel (some c) rest
    else findAllAux m fuel (some c) rest

def pyFindall (m : List Char → Option (List Char × List Char)) (s : List Char) :
    List (List Char) :=
  findAllAux m (s.length + 1) none s

/-- Maximal digit prefix (used to model `strptime` field parsing). -/
def takeDigitsPre : List Char → List Char × List Char
  | [] => ([], [])
  | c :: cs =>
    if c.isDigit then
      let p := takeDigitsPre cs
      (c :: p.1, p.2)
    else ([], c :: cs)

def digitsToNat (ds : List Char) : Nat :=
  ds.foldl (fun a c => a * 10 + (c.toNat - 48)) 0

/-- `datetime.strptime(s, '%d-%m-%Y')` field extraction: 1-2 digit day,
`-`, 1-2 digit month, `-`, 4 digit year, nothing left over.  (Modelled at
the digit widths the regexes can produce.) -/
def parseDMY (cs : List Char) : Option (Nat × Nat × Nat) :=
  let p := takeDigitsPre cs
  match p.2 with
  | '-' :: r2 =>
    let q := takeDigitsPre r2
    match q.2 with
    | '-' :: r4 =>
      let y := takeDigitsPre r4
      if y.2.isEmpty && 1 ≤ p.1.length && p.1.length ≤ 2
          && 1 ≤ q.1.length && q.1.length ≤ 2 && y.1.length = 4 then
        some (digitsToNat p.1, digitsToNat q.1, digitsToNat y.1)
      else none
    | _ => none
  | _ => none

/-- `datetime.strptime(s, '%m/%d/%Y')` field extraction. -/
def parseMDY (cs : List Char) : Option (Nat × Nat × Nat) :=
  let p := takeDigitsPre cs
  match p.2 with
  | '/' :: r2 =>
    let q := takeDigitsPre r2
    match q.2 with
    | '/' :: r4 =>
      let y := takeDigitsPre r4
      if y.2.isEmpty && 1 ≤ p.1.length && p.1.length ≤ 2
          && 1 ≤ q.1.length && q.1.length ≤ 2 && y.1.length = 4 then
        some (digitsToNat p.1, digitsToNat q.1, digitsToNat y.1)
      else none
    | _ => none
  | _ => none

/-- `datetime.strptime(s, '%Y.%m.%d')` field extraction. -/
def parseYMD (cs : List Char) : Option (Nat × Nat × Nat) :=
  let p := takeDigitsPre cs
  match p.2 with
  | '.' :: r2 =>
    let q := takeDigitsPre r2
    match q.2 with
    | '.' :: r4 =>
      let d := takeDigitsPre r4
      if d.2.isEmpty && p.1.length = 4 && 1 ≤ q.1.length && q.1.length ≤ 2
          && 1 ≤ d.1.length && d.1.length ≤ 2 then
        some (digitsToNat p.1, digitsToNat q.1, digitsToNat d.1)
      else none
    | _ => none
  | _ => none

def isLeapYear (y : Nat) : Bool :=
  (y % 4 = 0 && y % 100 ≠ 0) || y % 400 = 0

def daysInMonth (y m : Nat) : Nat :=
  if m = 2 then (if isLeapYear y then 29 else 28)
  else if m = 4 || m = 6 || m = 9 || m = 11 then 30
  else 31

/-- Calendar validation done by `datetime.strptime` (`datetime` requires
`1 ≤ year ≤ 9999`); a failure raises `ValueError`, which the source
catches and skips. -/
def validDate (y m d : Nat) : Bool :=
  1 ≤ y && y ≤ 9999 && 1 ≤ m && m ≤ 12 && 1 ≤ d && d ≤ daysInMonth y m

def padNum (w n : Nat) : List Char :=
  let s := Nat.toDigits 10 n
  List.replicate (w - s.length) '0' ++ s

/-- `dt.strftime('%Y-%m-%d')` (year zero-padded to four digits). -/
def normDate (y m d : Nat) : List Char :=
  padNum 4 y ++ '-' :: (padNum 2 m ++ '-' :: padNum 2 d)

def validNorm (y m d : Nat) : Option (List Char) :=
  if validDate y m d then some (normDate y m d) else none

/-- The body of the validation loop: dispatch on the separator contained
in the matched string, parse with the corresponding format, skip on
`ValueError`.  (A match with no separator is impossible; that branch is
unreachable, see the claim C8 theorem.) -/
def validateFormat (cs : List Char) : Option (List Char) :=
  if cs.contains '-' then
    (parseDMY cs).bind (fun t => validNorm t.2.2 t.2.1 t.1)
  else if cs.contains '/' then
    (parseMDY cs).bind (fun t => validNorm t.2.2 t.1 t.2.1)
  else if cs.contains '.' then
    (parseYMD cs).bind (fun t => validNorm t.1 t.2.1 t.2.2)
  else none

def find_all_dates (text : List Char) : List (List Char) :=
  let found := pyFindall p1m text ++ pyFindall p2m text ++ pyFindall p3m text
  found.filterMap validateFormat

/-! ## Helper lemmas -/

theorem mapE_ok_forall₂ {f : Row → Except String Row} :
    ∀ {l l' : DataFrame}, mapE f l = .ok l' →
      List.Forall₂ (fun x y => f x = .ok y) l l' := by
  intro l
  induction l with
  | nil =>
    intro l' h
    simp only [mapE] at h
    cases h
    exact List.Forall₂.nil
  | cons r rs ih =>
    intro l' h
    simp only [mapE] at h
    cases hf : f r with
    | error e => rw [hf] at h; cases hrest : mapE f rs <;> rw [hrest] at h <;> cases h
    | ok r' =>
      rw [hf] at h
      cases hrest : mapE f rs with
      | error e => rw [hrest] at h; cases h
      | ok rs' =>
        rw [hrest] at h
        cases h
        exact List.Forall₂.cons hf (ih hrest)

theorem forall₂_mem_right {α β : Type} {R : α → β → Prop} :
    ∀ {l : List α} {l' : List β}, List.Forall₂ R l l' → ∀ y ∈ l', ∃ x ∈ l, R x y := by
  intro l l' h
  induction h with
  | nil => intro y hy; cases hy
  | cons hR _ ih =>
    intro y hy
    cases hy with
    | head => exact ⟨_, List.mem_cons_self .., hR⟩
    | tail _ hy =>
      rcases ih y hy with ⟨x, hx, hxy⟩
      exact ⟨x, List.mem_cons_of_mem _ hx, hxy⟩

theorem hasCol_cons {k : String} {w : Val} {r : Row} {c : String} :
    hasCol ((k, w) :: r) c = (c == k || hasCol r c) := by
  by_cases h : c = k <;> simp [hasCol, h]

theorem getCol_setCol_self (r : Row) (c : String) (v : Val) :
    getCol (setCol r c v) c = some v := by
  induction r with
  | nil => simp [setCol, getCol, List.lookup_cons]
  | cons p rest ih =>
    obtain ⟨k, w⟩ := p
    by_cases hk : k = c
    · simp [setCol, hk, getCol, List.lookup_cons]
    · simpa [setCol, hk, getCol, List.lookup_cons,
        beq_false_of_ne (Ne.symm hk)] using ih

theorem getCol_setCol_ne (r : Row) {c c' : String} (v : Val) (hne : c' ≠ c) :
    getCol (setCol r c v) c' = getCol r c' := by
  induction r with
  | nil => simp [setCol, getCol, List.lookup_cons, beq_false_of_ne hne]
  | cons p rest ih =>
    obtain ⟨k, w⟩ := p
    by_cases hk : k = c
    · subst hk
      simp [setCol, getCol, List.lookup_cons, beq_false_of_ne hne]
    · by_cases hk' : c' = k
      · subst hk'
        simp [setCol, hk, getCol, List.lookup_cons]
      · simpa [setCol, hk, getCol, List.lookup_cons,
          beq_false_of_ne hk'] using ih

theorem hasCol_setCol (r : Row) (c c' : String) (v : Val) :
    hasCol (setCol r c v) c' = (hasCol r c' || c' == c) := by
  induction r with
  | nil => by_cases h : c' = c <;> simp [setCol, hasCol, h]
  | cons p rest ih =>
    obtain ⟨k, w⟩ := p
    by_cases hk : k = c
    · subst hk
      by_cases h : c' = k <;> simp [setCol, hasCol_cons, h]
    · rw [show setCol ((k, w) :: rest) c v = (k, w) :: setCol rest c v by
        simp [setCol, hk]]
      rw [hasCol_cons, hasCol_cons, ih]
      cases c' == k <;> simp

/-! ## Claim theorems -/

/-- C1: `calculate_time_based_toll_rates` gives each record the rate of the
first boundary (declaration order 00:00, 06:00, 12:00, 18:00, 23:59 with
rates 0.5, 1.0, 1.5, 2.0, 1.0) whose threshold is at most the record's
time-of-day, defaulting to 1.0; since the 00:00 boundary is below every
time-of-day, every record receives rate 0.5. -/
theorem c1_time_based_rate_always_half :
    (∀ x : Nat, timeBasedRate x = 1 / 2) ∧
    (∀ df res post, calculate_time_based_toll_rates df = .ok (res, post) →
      ∀ r ∈ res, getCol r "toll_rate" = some (Val.num (1 / 2))) := by
  have hrate : ∀ x : Nat, timeBasedRate x = 1 / 2 := by
    intro x
    unfold timeBasedRate time_based_rates
    rw [List.find?_cons_of_pos _ (by simp)]
    rfl
  refine ⟨hrate, ?_⟩
  intro df res post h r hr
  unfold calculate_time_based_toll_rates at h
  cases h1 : mapE timeStep1 df with
  | error e => simp only [h1] at h; cases h
  | ok df1 =>
    simp only [h1] at h
    cases h2 : mapE timeStep2 df1 with
    | error e => simp only [h2] at h; cases h
    | ok df2 =>
      simp only [h2] at h
      cases h3 : mapE projectTollCols df2 with
      | error e => simp only [h3] at h; cases h
      | ok res' =>
        simp only [h3, Except.ok.injEq, Prod.mk.injEq] at h
        obtain ⟨hres, hpost⟩ := h
        subst hres
        subst hpost
        obtain ⟨r2, hr2, hproj⟩ := forall₂_mem_right (mapE_ok_forall₂ h3) r hr
        obtain ⟨r1, _, hstep⟩ := forall₂_mem_right (mapE_ok_forall₂ h2) r2 hr2
        unfold timeStep2 at hstep
        have htoll : getCol r2 "toll_rate" = some (Val.num (1 / 2)) := by
          cases ht : getCol r1 "time" with
          | none => rw [ht] at hstep; cases hstep
          | some v =>
            rw [ht] at hstep
            cases v with
            | tod x =>
              cases hstep
              rw [getCol_setCol_self, hrate]
            | num q => cases hstep
            | nan => cases hstep
            | str s => cases hstep
            | ts t => cases hstep
        unfold projectTollCols at hproj
        cases ha : getCol r2 "id_start" with
        | none => rw [ha] at hproj; cases hproj
        | some a =>
          rw [ha] at hproj
          cases hb : getCol r2 "id_end" with
          | none => rw [hb] at hproj; cases hproj
          | some b =>
            rw [hb] at hproj
            rw [htoll] at hproj
            cases hproj
            rfl


/-- Witness for C1 at a concrete one-row frame. -/
theorem c1_witness :
    getCol [("id_start", Val.str "a"), ("id_end", Val.str "b"),
            ("toll_rate", Val.num (1 / 2))] "toll_rate" = some (Val.num (1 / 2)) :=
  c1_time_based_rate_always_half.2
    [[("id_start", Val.str "a"), ("id_end", Val.str "b"), ("timestamp", Val.ts 500)]]
    [[("id_start", Val.str "a"), ("id_end", Val.str "b"), ("toll_rate", Val.num (1 / 2))]]
    [[("id_start", Val.str "a"), ("id_end", Val.str "b"), ("timestamp", Val.ts 500),
      ("time", Val.tod 500), ("toll_rate", Val.num (1 / 2))]]
    (by rfl)
    [("id_start", Val.str "a"), ("id_end", Val.str "b"), ("toll_rate", Val.num (1 / 2))]
    (by simp)

/-- C5 counterexample: with chunk size `-1` (which is `≤ 0`) the function
does not signal a failure; `range(0, 3, -1)` is empty, so it silently
returns the empty list. -/
theorem c5_counterexample :
    reverse_by_n_elements [1, 2, 3] (-1) = .ok [] := by rfl

/-- C5 (amended): only chunk size `n = 0` signals the invalid-argument
failure (the zero-step `range` raises `ValueError`); for every `n < 0` the
index range is empty and the function silently returns `[]`. -/
theorem c5_nonpositive_chunk_size (lst : List Int) (n : Int) (h : n ≤ 0) :
    reverse_by_n_elements lst n =
      if n = 0 then .error "range() arg 3 must not be zero" else .ok [] := by
  unfold reverse_by_n_elements pyRange0
  by_cases h0 : n = 0
  · simp [h0]
  · have hneg : n < 0 := lt_of_le_of_ne h h0
    simp [h0, hneg]

/-- Witness for C5 (amended) at a concrete input. -/
theorem c5_witness :
    reverse_by_n_elements [5] (-2) =
      if (-2 : Int) = 0 then .error "range() arg 3 must not be zero" else .ok [] :=
  c5_nonpositive_chunk_size [5] (-2) (by decide)

/-- C3: `time_check` returns one boolean per distinct `(id, id_2)` key,
equal to the literal conjunction
`(min ≤ min + 7 days) && (max ≥ min + 1 day)` over the group's
timestamps; the first clause is always true, so the boolean equals
`max ≥ min + 1 day`. -/
theorem c3_time_check_tautological_clause (df : List TRow) :
    ((time_check df).map Prod.fst).Nodup ∧
    ∀ k b, (k, b) ∈ time_check df →
      ∃ t ts, (df.filter (fun r => tKey r = k)).map TRow.timestamp = t :: ts ∧
        b = (decide (ts.foldl min t ≤ ts.foldl min t + 7 * 1440) &&
             decide (ts.foldl max t ≥ ts.foldl min t + 1440)) ∧
        b = decide (ts.foldl max t ≥ ts.foldl min t + 1440) := by
  constructor
  · unfold time_check
    rw [List.map_map]
    simpa [Function.comp_def] using List.nodup_dedup (df.map tKey)
  · intro k b hmem
    unfold time_check at hmem
    rw [List.mem_map] at hmem
    obtain ⟨k', hk', hpair⟩ := hmem
    injection hpair with hkk hbb
    subst hkk
    rw [List.mem_dedup, List.mem_map] at hk'
    obtain ⟨r, hr, hrk⟩ := hk'
    have hrf : r ∈ df.filter (fun r => tKey r = k') :=
      List.mem_filter.mpr ⟨hr, by simp [hrk]⟩
    cases hl : df.filter (fun r => tKey r = k') with
    | nil => rw [hl] at hrf; cases hrf
    | cons a as =>
      refine ⟨a.timestamp, as.map TRow.timestamp, by rw [List.map_cons], ?_, ?_⟩
      · rw [← hbb, hl, List.map_cons]
        rfl
      · rw [← hbb, hl, List.map_cons]
        have hcl : (as.map TRow.timestamp).foldl min a.timestamp ≤
            (as.map TRow.timestamp).foldl min a.timestamp + 7 * 1440 := by omega
        simp [groupBool, hcl]

/-- Witness for C3 at a concrete two-row frame. -/
theorem c3_witness :
    ∃ t ts,
      (([⟨1, 2, 0⟩, ⟨1, 2, 2000⟩] : List TRow).filter
          (fun r => tKey r = (1, 2))).map TRow.timestamp = t :: ts ∧
      true = (decide (ts.foldl min t ≤ ts.foldl min t + 7 * 1440) &&
              decide (ts.foldl max t ≥ ts.foldl min t + 1440)) ∧
      true = decide (ts.foldl max t ≥ ts.foldl min t + 1440) :=
  (c3_time_check_tautological_clause [⟨1, 2, 0⟩, ⟨1, 2, 2000⟩]).2 (1, 2) true (by decide)

/-! Invariant machinery for `group_by_length`. -/

def GBLInv (pre : List String) (acc : List (Nat × List String)) : Prop :=
  (acc.map Prod.fst).Nodup ∧
  (∀ p ∈ acc, p.2 = pre.filter (fun s => s.length = p.1)) ∧
  (∀ k : Nat, k ∈ acc.map Prod.fst ↔ ∃ s ∈ pre, s.length = k)

theorem upsertLen_keys (acc : List (Nat × List String)) (s : String) :
    (upsertLen acc s).map Prod.fst =
      if s.length ∈ acc.map Prod.fst then acc.map Prod.fst
      else acc.map Prod.fst ++ [s.length] := by
  induction acc with
  | nil => simp [upsertLen]
  | cons p rest ih =>
    obtain ⟨k, g⟩ := p
    by_cases hk : k = s.length
    · subst hk
      simp [upsertLen]
    · simp only [upsertLen, if_neg hk, List.map_cons, List.mem_cons, ih]
      by_cases hmem : s.length ∈ rest.map Prod.fst
      · simp [hmem, Ne.symm hk]
      · simp [hmem, Ne.symm hk]

theorem mem_upsertLen {acc : List (Nat × List String)} {s : String}
    {p : Nat × List String}
    (hnd : (acc.map Prod.fst).Nodup) (hp : p ∈ upsertLen acc s) :
    (p ∈ acc ∧ p.1 ≠ s.length) ∨
    (∃ g, (s.length, g) ∈ acc ∧ p = (s.length, g ++ [s])) ∨
    (s.length ∉ acc.map Prod.fst ∧ p = (s.length, [s])) := by
  induction acc with
  | nil =>
    simp only [upsertLen, List.mem_singleton] at hp
    exact Or.inr (Or.inr ⟨by simp, hp⟩)
  | cons q rest ih =>
    obtain ⟨k, g⟩ := q
    rw [List.map_cons, List.nodup_cons] at hnd
    by_cases hk : k = s.length
    · subst hk
      rw [upsertLen, if_pos rfl] at hp
      cases hp with
      | head => exact Or.inr (Or.inl ⟨g, List.mem_cons_self .., rfl⟩)
      | tail _ hp =>
        have hne : p.1 ≠ s.length := by
          intro hcontra
          have hmm : p.1 ∈ List.map Prod.fst rest := List.mem_map_of_mem Prod.fst hp
          rw [hcontra] at hmm
          exact hnd.1 hmm
        exact Or.inl ⟨List.mem_cons_of_mem _ hp, hne⟩
    · rw [upsertLen, if_neg hk] at hp
      cases hp with
      | head => exact Or.inl ⟨List.mem_cons_self .., hk⟩
      | tail _ hp =>
        rcases ih hnd.2 hp with ⟨hmem, hne⟩ | ⟨g', hg', hpe⟩ | ⟨hnm, hpe⟩
        · exact Or.inl ⟨List.mem_cons_of_mem _ hmem, hne⟩
        · exact Or.inr (Or.inl ⟨g', List.mem_cons_of_mem _ hg', hpe⟩)
        · refine Or.inr (Or.inr ⟨?_, hpe⟩)
          simp only [List.map_cons, List.mem_cons, not_or]
          exact ⟨Ne.symm hk, hnm⟩

theorem upsertLen_sum (acc : List (Nat × List String)) (s : String) :
    ((upsertLen acc s).map (fun p => p.2.length)).sum =
      (acc.map (fun p => p.2.length)).sum + 1 := by
  induction acc with
  | nil => simp [upsertLen]
  | cons q rest ih =>
    obtain ⟨k, g⟩ := q
    by_cases hk : k = s.length
    · subst hk
      simp [upsertLen]
      omega
    · simp [upsertLen, hk, ih]
      omega

theorem gbl_step {pre : List String} {acc : List (Nat × List String)} (s : String)
    (h : GBLInv pre acc) : GBLInv (pre ++ [s]) (upsertLen acc s) := by
  obtain ⟨hnd, hcontent, hkeys⟩ := h
  refine ⟨?_, ?_, ?_⟩
  · rw [upsertLen_keys]
    by_cases hmem : s.length ∈ acc.map Prod.fst
    · simpa [hmem] using hnd
    · simp only [hmem, if_neg, ite_false]
      rw [List.nodup_append]
      exact ⟨hnd, List.nodup_singleton _, by simpa using fun h => hmem h⟩
  · intro p hp
    rcases mem_upsertLen hnd hp with ⟨hmem, hne⟩ | ⟨g, hg, hpe⟩ | ⟨hnm, hpe⟩
    · rw [hcontent p hmem, List.filter_append]
      have : [s].filter (fun x => x.length = p.1) = [] := by
        simp [List.filter, Ne.symm hne]
      rw [this, List.append_nil]
    · subst hpe
      have hgc := hcontent _ hg
      simp only at hgc ⊢
      rw [List.filter_append, ← hgc]
      simp [List.filter]
    · subst hpe
      have hfe : pre.filter (fun x => x.length = s.length) = [] := by
        rw [List.filter_eq_nil_iff]
        intro x hx
        simp only [decide_eq_true_eq]
        intro hxl
        exact hnm ((hkeys s.length).mpr ⟨x, hx, hxl⟩)
      simp only
      rw [List.filter_append, hfe]
      simp [List.filter]
  · intro k
    rw [upsertLen_keys]
    by_cases hmem : s.length ∈ acc.map Prod.fst
    · rw [if_pos hmem, hkeys k]
      constructor
      · rintro ⟨x, hx, hxl⟩
        exact ⟨x, List.mem_append_left _ hx, hxl⟩
      · rintro ⟨x, hx, hxl⟩
        rcases List.mem_append.mp hx with hx' | hx'
        · exact ⟨x, hx', hxl⟩
        · rw [List.mem_singleton] at hx'
          subst hx'
          obtain ⟨y, hy, hyl⟩ := (hkeys x.length).mp hmem
          exact ⟨y, hy, by rw [hyl, hxl]⟩
    · rw [if_neg hmem]
      constructor
      · intro hk
        rcases List.mem_append.mp hk with hk' | hk'
        · obtain ⟨x, hx, hxl⟩ := (hkeys k).mp hk'
          exact ⟨x, List.mem_append_left _ hx, hxl⟩
        · rw [List.mem_singleton] at hk'
          exact ⟨s, List.mem_append_right _ (List.mem_singleton.mpr rfl), hk'.symm⟩
      · rintro ⟨x, hx, hxl⟩
        rcases List.mem_append.mp hx with hx' | hx'
        · exact List.mem_append_left _ ((hkeys k).mpr ⟨x, hx', hxl⟩)
        · rw [List.mem_singleton] at hx'
          subst hx'
          exact List.mem_append_right _ (List.mem_singleton.mpr hxl.symm)

theorem gbl_fold (lst : List String) :
    ∀ (pre : List String) (acc : List (Nat × List String)),
      GBLInv pre acc → GBLInv (pre ++ lst) (lst.foldl upsertLen acc) := by
  induction lst with
  | nil => intro pre acc h; simpa using h
  | cons a rest ih =>
    intro pre acc h
    have h' := ih (pre ++ [a]) (upsertLen acc a) (gbl_step a h)
    rw [List.foldl_cons]
    simpa [List.append_assoc] using h'

theorem gbl_fold_sum (lst : List String) :
    ∀ (acc : List (Nat × List String)),
      ((lst.foldl upsertLen acc).map (fun p => p.2.length)).sum =
        (acc.map (fun p => p.2.length)).sum + lst.length := by
  induction lst with
  | nil => intro acc; simp
  | cons a rest ih =>
    intro acc
    rw [List.foldl_cons, ih (upsertLen acc a), upsertLen_sum]
    simp
    omega

/-- C10: `group_by_length` partitions its input: keys (string lengths) are
distinct, the group of key `k` is exactly the input strings of length `k`
in their original relative order, a length occurs as a key exactly when
some input string has it, and the group sizes sum to the input length. -/
theorem c10_group_by_length_partitions (lst : List String) :
    ((group_by_length lst).map Prod.fst).Nodup ∧
    (∀ p ∈ group_by_length lst, p.2 = lst.filter (fun s => s.length = p.1)) ∧
    (∀ k : Nat, k ∈ (group_by_length lst).map Prod.fst ↔ ∃ s ∈ lst, s.length = k) ∧
    ((group_by_length lst).map (fun p => p.2.length)).sum = lst.length := by
  have hbase : GBLInv [] [] := by
    refine ⟨List.nodup_nil, ?_, ?_⟩
    · intro p hp; cases hp
    · intro k; simp
  have h := gbl_fold lst [] [] hbase
  rw [List.nil_append] at h
  obtain ⟨h1, h2, h3⟩ := h
  refine ⟨h1, h2, h3, ?_⟩
  simpa using gbl_fold_sum lst []

/-- Witness for C10 at a concrete input. -/
theorem c10_witness :
    ((2 : Nat), ["ab", "de"]).2 =
      ["ab", "c", "de"].filter (fun s => s.length = ((2 : Nat), ["ab", "de"]).1) :=
  (c10_group_by_length_partitions ["ab", "c", "de"]).2.1 (2, ["ab", "de"]) (by decide)

/-! Chunk decomposition lemmas for `reverse_by_n_elements`. -/

theorem chunksOf_nil (k : Nat) : chunksOf k [] = [] := by
  rw [chunksOf]

theorem chunksOf_cons (k : Nat) (a : Int) (rest : List Int) :
    chunksOf k (a :: rest) =
      (a :: rest.take (k - 1)) :: chunksOf k (rest.drop (k - 1)) := by
  rw [chunksOf]

theorem chunks_slices_aux (k : Nat) (hk : 0 < k) :
    ∀ (n : Nat) (l : List Int), l.length ≤ n →
      (List.range' 0 ((l.length + (k - 1)) / k) k).map (fun i => (l.drop i).take k) =
        chunksOf k l := by
  intro n
  induction n with
  | zero =>
    intro l hl
    have : l = [] := List.eq_nil_of_length_eq_zero (Nat.le_zero.mp hl)
    subst this
    have hz : (k - 1) / k = 0 := Nat.div_eq_of_lt (by omega)
    simp [hz, chunksOf_nil]
  | succ n ih =>
    intro l hl
    cases l with
    | nil =>
      have hz : (k - 1) / k = 0 := Nat.div_eq_of_lt (by omega)
      simp [hz, chunksOf_nil]
    | cons a rest =>
      have hlen : (a :: rest).length = rest.length + 1 := rfl
      have hcnt : (rest.length + 1 + (k - 1)) / k =
          ((rest.length + 1 - k) + (k - 1)) / k + 1 := by
        by_cases hle : k ≤ rest.length + 1
        · have harr : rest.length + 1 + (k - 1) = (rest.length + 1 - k + (k - 1)) + k := by
            omega
          rw [harr, Nat.add_div_right _ hk]
        · have h1 : rest.length + 1 - k = 0 := by omega
          have hlhs : (rest.length + 1 + (k - 1)) / k = 1 := by
            apply Nat.div_eq_of_lt_le
            · omega
            · omega
          have hrhs : (0 + (k - 1)) / k = 0 := by
            apply Nat.div_eq_of_lt
            omega
          rw [h1, hlhs, hrhs]
      have hshift : List.range' k ((rest.length + 1 - k + (k - 1)) / k) k =
          (List.range' 0 ((rest.length + 1 - k + (k - 1)) / k) k).map (k + ·) := by
        have hmap := List.map_add_range' k 0 ((rest.length + 1 - k + (k - 1)) / k) k
        rw [Nat.add_zero] at hmap
        exact hmap.symm
      have hdropk : (a :: rest).drop k = rest.drop (k - 1) := by
        have hkk : k = (k - 1) + 1 := by omega
        rw [hkk]
        rfl
      have htakek : (a :: rest).take k = a :: rest.take (k - 1) := by
        have hkk : k = (k - 1) + 1 := by omega
        rw [hkk]
        rfl
      have hcomp : ((fun i => ((a :: rest).drop i).take k) ∘ (fun x => k + x)) =
          (fun i => (((a :: rest).drop k).drop i).take k) := by
        funext i
        simp only [Function.comp_apply, List.drop_drop]
      have hlen2 : ((a :: rest).drop k).length = rest.length + 1 - k := by
        simp
      have hrec := ih ((a :: rest).drop k) (by simp at hl ⊢; omega)
      rw [hlen2] at hrec
      rw [hlen, hcnt, List.range'_succ, List.map_cons, Nat.zero_add, hshift,
        List.map_map, hcomp, hrec, List.drop_zero, chunksOf_cons, htakek, hdropk]

theorem chunks_flatten_perm (k : Nat) (hk : 0 < k) :
    ∀ (n : Nat) (l : List Int), l.length ≤ n →
      (((chunksOf k l).map List.reverse).flatten).Perm l := by
  intro n
  induction n with
  | zero =>
    intro l hl
    have : l = [] := List.eq_nil_of_length_eq_zero (Nat.le_zero.mp hl)
    subst this
    simp [chunksOf]
  | succ n ih =>
    intro l hl
    cases l with
    | nil => simp [chunksOf]
    | cons a rest =>
      rw [chunksOf_cons, List.map_cons, List.flatten_cons]
      have hdropk : rest.drop (k - 1) = (a :: rest).drop k := by
        have : k = (k - 1) + 1 := by omega
        rw [this]
        rfl
      have htakek : a :: rest.take (k - 1) = (a :: rest).take k := by
        have : k = (k - 1) + 1 := by omega
        rw [this]
        rfl
      have hrec : (((chunksOf k (rest.drop (k - 1))).map List.reverse).flatten).Perm
          (rest.drop (k - 1)) := by
        apply ih
        simp at hl ⊢
        omega
      have h1 : ((a :: rest.take (k - 1)).reverse ++
          ((chunksOf k (rest.drop (k - 1))).map List.reverse).flatten).Perm
          ((a :: rest.take (k - 1)) ++ rest.drop (k - 1)) :=
        List.Perm.append (List.reverse_perm _) hrec
      have h2 : (a :: rest.take (k - 1)) ++ rest.drop (k - 1) = a :: rest := by
        rw [htakek, hdropk]
        exact List.take_append_drop k (a :: rest)
      exact h2 ▸ h1

/-- C9: for every chunk size at least 1, `reverse_by_n_elements` succeeds
and returns a list of the same length that is a permutation of the input. -/
theorem c9_reverse_by_n_perm (lst : List Int) (n : Int) (h : 1 ≤ n) :
    ∃ out, reverse_by_n_elements lst n = .ok out ∧
      out.length = lst.length ∧ out.Perm lst := by
  have hk : 0 < n.toNat := by omega
  have h0 : ¬(n = 0) := by omega
  have hneg : ¬(n < 0) := by omega
  unfold reverse_by_n_elements pyRange0
  rw [if_neg h0, if_neg hneg]
  have hperm : (((List.range' 0 ((lst.length + (n.toNat - 1)) / n.toNat) n.toNat).map
      (fun i => ((lst.drop i).take n.toNat).reverse)).flatten).Perm lst := by
    have hmm : (fun i => ((lst.drop i).take n.toNat).reverse) =
        (List.reverse ∘ fun i => (lst.drop i).take n.toNat) := rfl
    rw [hmm, ← List.map_map,
      chunks_slices_aux n.toNat hk lst.length lst le_rfl]
    exact chunks_flatten_perm n.toNat hk lst.length lst le_rfl
  exact ⟨_, rfl, hperm.length_eq, hperm⟩

/-- Witness for C9 at a concrete input. -/
theorem c9_witness :
    ∃ out, reverse_by_n_elements [1, 2, 3] 2 = .ok out ∧
      out.length = ([1, 2, 3] : List Int).length ∧ out.Perm [1, 2, 3] :=
  c9_reverse_by_n_perm [1, 2, 3] 2 (by decide)

/-! Index lemmas for `rotate_and_multiply_matrix`. -/

theorem scaleRows_length (w : Nat) :
    ∀ (i : Nat) (l : List (List Int)), (scaleRows w i l).length = l.length := by
  intro i l
  induction l generalizing i with
  | nil => rfl
  | cons row rs ih => simp [scaleRows, ih]

theorem scaleRows_getD (w : Nat) :
    ∀ (l : List (List Int)) (i0 i : Nat), i < l.length →
      (scaleRows w i0 l).getD i [] =
        (List.range w).map
          (fun j => (l.getD i []).getD j 0 * (Int.ofNat (i0 + i) + Int.ofNat j)) := by
  intro l
  induction l with
  | nil =>
    intro i0 i h
    simp at h
  | cons row rs ih =>
    intro i0 i h
    cases i with
    | zero => simp [scaleRows]
    | succ i' =>
      have h' : i' < rs.length := by simpa using h
      have := ih (i0 + 1) i' h'
      simp only [scaleRows, List.getD_cons_succ, this]
      have harith : i0 + 1 + i' = i0 + (i' + 1) := by omega
      rw [harith]

theorem getD_map_range (w j : Nat) (f : Nat → Int) (hj : j < w) :
    (((List.range w).map f).getD j 0) = f j := by
  have hlt : j < ((List.range w).map f).length := by simpa using hj
  rw [List.getD_eq_getElem _ _ hlt, List.getElem_map, List.getElem_range]

theorem pyZipGo_spec :
    ∀ (r : List Int) (rest : List (List Int)),
      (∀ x ∈ rest, x.length = r.length) →
      (pyZipGo r rest).length = r.length ∧
      ∀ i, i < r.length →
        (pyZipGo r rest).getD i [] = r.getD i 0 :: rest.map (fun x => x.getD i 0) := by
  intro r
  induction r with
  | nil =>
    intro rest h
    refine ⟨by simp [pyZipGo], ?_⟩
    intro i hi
    simp at hi
  | cons a as ih =>
    intro rest h
    have hne : rest.any (·.isEmpty) = false := by
      rw [List.any_eq_false]
      intro x hx
      have hx' := h x hx
      simp only [List.length_cons] at hx'
      simp [List.isEmpty_iff]
      intro hxe
      rw [hxe] at hx'
      simp at hx'
    have hrest' : ∀ x ∈ rest.map List.tail, x.length = as.length := by
      intro x hx
      rw [List.mem_map] at hx
      obtain ⟨y, hy, hxy⟩ := hx
      have := h y hy
      subst hxy
      simp [List.length_tail, this]
    obtain ⟨ihlen, ihget⟩ := ih (rest.map List.tail) hrest'
    rw [show pyZipGo (a :: as) rest =
          (a :: rest.map (·.headI)) :: pyZipGo as (rest.map (·.tail)) by
        rw [pyZipGo, hne]; simp]
    constructor
    · simp [ihlen]
    · intro i hi
      cases i with
      | zero =>
        simp only [List.getD_cons_zero, List.getD_cons_succ]
        congr 1
        apply List.map_congr_left
        intro x hx
        have hx' := h x hx
        cases x with
        | nil => simp at hx'
        | cons y ys => rfl
      | succ i' =>
        have hi' : i' < as.length := by simpa using hi
        rw [List.getD_cons_succ, ihget i' hi', List.getD_cons_succ, List.map_map]
        congr 1
        apply List.map_congr_left
        intro x hx
        have hx' := h x hx
        cases x with
        | nil => simp at hx'
        | cons y ys => rfl

/-- C4: for every square matrix, `rotate_and_multiply_matrix` returns the
90-degrees-clockwise rotation with each cell `(i, j)` multiplied by
`i + j` where `i` and `j` are the post-rotation indices; cell `(i, j)` of
the rotation is cell `(n - 1 - j, i)` of the input. -/
theorem c4_rotate_and_multiply (m : List (List Int)) (n : Nat)
    (hlen : m.length = n) (hrows : ∀ row ∈ m, row.length = n) :
    (rotate_and_multiply_matrix m).length = n ∧
    ∀ i j, i < n → j < n →
      ((rotate_and_multiply_matrix m).getD i []).getD j 0 =
        (m.getD (n - 1 - j) []).getD i 0 * (Int.ofNat i + Int.ofNat j) := by
  cases n with
  | zero =>
    have hm : m = [] := List.eq_nil_of_length_eq_zero hlen
    subst hm
    refine ⟨?_, ?_⟩
    · rfl
    · intro i j hi hj
      simp at hi
  | succ n' =>
    cases hrev : m.reverse with
    | nil =>
      exfalso
      have : m.reverse.length = n' + 1 := by simp [hlen]
      rw [hrev] at this
      simp at this
    | cons r rest =>
      have hmrev : ∀ x ∈ m.reverse, x.length = n' + 1 := by
        intro x hx
        exact hrows x (List.mem_reverse.mp hx)
      have hr : r.length = n' + 1 := hmrev r (by rw [hrev]; exact List.mem_cons_self ..)
      have hrestlen : ∀ x ∈ rest, x.length = r.length := by
        intro x hx
        rw [hr]
        exact hmrev x (by rw [hrev]; exact List.mem_cons_of_mem _ hx)
      obtain ⟨hzlen, hzget⟩ := pyZipGo_spec r rest hrestlen
      have hrestcount : rest.length = n' := by
        have : m.reverse.length = n' + 1 := by simp [hlen]
        rw [hrev] at this
        simpa using this
      have hzip : pyZip m.reverse = pyZipGo r rest := by rw [hrev]; rfl
      have hw : ((pyZip m.reverse).headD []).length = n' + 1 := by
        rw [hzip]
        have hhead : (pyZipGo r rest).headD [] = (pyZipGo r rest).getD 0 [] := by
          cases pyZipGo r rest <;> rfl
        rw [hhead, hzget 0 (by omega)]
        simp [hrestcount]
      unfold rotate_and_multiply_matrix
      dsimp only
      rw [hw]
      constructor
      · rw [scaleRows_length, hzip, hzlen, hr]
      · intro i j hi hj
        have hilen : i < (pyZip m.reverse).length := by
          rw [hzip, hzlen, hr]
          exact hi
        rw [scaleRows_getD (n' + 1) (pyZip m.reverse) 0 i hilen,
          getD_map_range _ _ _ hj, Nat.zero_add]
        congr 1
        rw [hzip, hzget i (by rw [hr]; exact hi)]
        cases j with
        | zero =>
          simp only [List.getD_cons_zero]
          have : m.getD (n' + 1 - 1 - 0) [] = r := by
            have hg : m.reverse.getD 0 [] = r := by rw [hrev]; rfl
            have hrt : m.reverse.getD 0 [] = m.getD (m.length - 1 - 0) [] := by
              have h0 : 0 < m.reverse.length := by simp [hlen]
              rw [List.getD_eq_getElem _ _ h0, List.getElem_reverse,
                ← List.getD_eq_getElem]
            rw [hlen] at hrt
            rw [← hg, hrt]
          rw [this]
        | succ j' =>
          have hj' : j' < rest.length := by rw [hrestcount]; omega
          rw [List.getD_cons_succ]
          have hmapget : (rest.map (fun x => x.getD i 0)).getD j' 0 =
              (rest.getD j' []).getD i 0 := by
            have hlt : j' < (rest.map (fun x => x.getD i 0)).length := by
              simpa using hj'
            rw [List.getD_eq_getElem _ _ hlt, List.getElem_map, ← List.getD_eq_getElem]
          rw [hmapget]
          have hrevget : m.reverse.getD (j' + 1) [] = rest.getD j' [] := by
            rw [hrev]
            rfl
          have hrt : m.reverse.getD (j' + 1) [] = m.getD (m.length - 1 - (j' + 1)) [] := by
            have hjlt : j' + 1 < m.reverse.length := by simp [hlen]; omega
            rw [List.getD_eq_getElem _ _ hjlt, List.getElem_reverse,
              ← List.getD_eq_getElem]
          rw [hlen] at hrt
          rw [← hrevget, hrt]

/-- Witness for C4: the spec's concrete example
`[[1, 2], [3, 4]] ↦ [[0, 1], [4, 4]]`, obtained from the theorem at
`n = 2` together with direct evaluation. -/
theorem c4_witness :
    rotate_and_multiply_matrix [[1, 2], [3, 4]] = [[0, 1], [4, 4]] ∧
    ((rotate_and_multiply_matrix [[1, 2], [3, 4]]).length = 2 ∧
      ∀ i j, i < 2 → j < 2 →
        ((rotate_and_multiply_matrix [[1, 2], [3, 4]]).getD i []).getD j 0 =
          (([[1, 2], [3, 4]] : List (List Int)).getD (2 - 1 - j) []).getD i 0 *
            (Int.ofNat i + Int.ofNat j)) :=
  ⟨by rfl, c4_rotate_and_multiply [[1, 2], [3, 4]] 2 (by rfl) (by decide)⟩

/-- C7: `find_ids_within_ten_percentage_threshold` returns exactly the
`id_start` keys whose per-key mean distance lies in the inclusive interval
`[0.9 * ref_mean, 1.1 * ref_mean]`, with their means, sorted strictly
ascending by id; when no record carries the reference id the reference
mean is the missing-value marker, every comparison against it is false,
and the result is empty with no error. -/
theorem c7_threshold_filter (df : List URow) (ref : Int) :
    List.Pairwise (· < ·)
      ((find_ids_within_ten_percentage_threshold df ref).map Prod.fst) ∧
    (∀ k mq, (k, mq) ∈ find_ids_within_ten_percentage_threshold df ref ↔
      ((∃ r ∈ df, r.id_start = k) ∧ groupMean df k = some mq ∧
        ∃ refm, groupMean df ref = some refm ∧
          refm * (9 / 10) ≤ mq ∧ mq ≤ refm * (11 / 10))) ∧
    ((∀ r ∈ df, r.id_start ≠ ref) →
      find_ids_within_ten_percentage_threshold df ref = []) := by
  unfold find_ids_within_ten_percentage_threshold
  dsimp only
  refine ⟨?_, ?_, ?_⟩
  · apply List.Pairwise.map Prod.fst (fun a b h => h)
    rw [List.pairwise_filterMap]
    apply List.Pairwise.filter
    rw [List.pairwise_map]
    have hs : List.Pairwise (· < ·)
        (((df.map URow.id_start).toFinset).sort (· ≤ ·)) := by
      simpa using Finset.sort_sorted_lt (df.map URow.id_start).toFinset
    apply hs.imp
    intro a b hab x hx y hy
    rw [Option.mem_def, Option.map_eq_some'] at hx hy
    obtain ⟨m1, _, hx1⟩ := hx
    obtain ⟨m2, _, hy1⟩ := hy
    rw [← hx1, ← hy1]
    exact hab
  · intro k mq
    constructor
    · intro hmem
      rw [List.mem_filterMap] at hmem
      obtain ⟨p, hp, hpe⟩ := hmem
      rw [List.mem_filter] at hp
      obtain ⟨hpavg, hpcond⟩ := hp
      rw [List.mem_map] at hpavg
      obtain ⟨k', hk', hpk⟩ := hpavg
      subst hpk
      rw [Option.map_eq_some'] at hpe
      obtain ⟨x, hx2, hxe⟩ := hpe
      dsimp only at hx2 hxe
      have hk'k : k' = k := congrArg Prod.fst hxe
      have hxmq : x = mq := congrArg Prod.snd hxe
      subst hk'k
      subst hxmq
      rw [Finset.mem_sort, List.mem_toFinset, List.mem_map] at hk'
      obtain ⟨r, hr, hrk⟩ := hk'
      rw [Bool.and_eq_true] at hpcond
      obtain ⟨hc1, hc2⟩ := hpcond
      cases href : groupMean df ref with
      | none =>
        rw [href] at hc1
        simp only [Option.map_none'] at hc1
        rw [show optLeB none (groupMean df k') = false from rfl] at hc1
        cases hc1
      | some refm =>
        rw [href] at hc1 hc2
        simp only [Option.map_some'] at hc1 hc2
        rw [hx2] at hc1 hc2
        simp only [optLeB, decide_eq_true_eq] at hc1 hc2
        exact ⟨⟨r, hr, hrk⟩, hx2, refm, rfl, hc1, hc2⟩
    · rintro ⟨⟨r, hr, hrk⟩, hmean, refm, href, h1, h2⟩
      rw [List.mem_filterMap]
      refine ⟨(k, groupMean df k), ?_, ?_⟩
      · rw [List.mem_filter]
        constructor
        · rw [List.mem_map]
          exact ⟨k, by
            rw [Finset.mem_sort, List.mem_toFinset, List.mem_map]
            exact ⟨r, hr, hrk⟩, rfl⟩
        · rw [href, hmean]
          simp only [Option.map_some', optLeB, Bool.and_eq_true, decide_eq_true_eq]
          exact ⟨h1, h2⟩
      · rw [hmean]
        rfl
  · intro habs
    have hfe : df.filter (fun r => r.id_start = ref) = [] := by
      rw [List.filter_eq_nil_iff]
      intro r hr
      simpa using habs r hr
    have href : groupMean df ref = none := by
      unfold groupMean meanQ
      rw [hfe]
      rfl
    rw [href]
    rw [List.filter_eq_nil_iff.mpr ?hall]
    case hall =>
      intro p hp
      simp only [Option.map_none']
      rw [show optLeB none p.2 = false from rfl]
      simp
    rfl

/-- Witness for C7 at a concrete frame: the reference id 1 has mean 11,
and ids 1 and 2 (means 11 and 11) fall inside the band while id 3
(mean 20) does not. -/
theorem c7_witness :
    ((1, (11 : ℚ)) ∈ find_ids_within_ten_percentage_threshold
        [⟨1, 2, 10⟩, ⟨1, 3, 12⟩, ⟨2, 1, 11⟩, ⟨3, 1, 20⟩] 1 ↔
      ((∃ r ∈ [⟨1, 2, (10 : ℚ)⟩, ⟨1, 3, 12⟩, ⟨2, 1, 11⟩, ⟨3, 1, 20⟩],
          URow.id_start r = 1) ∧
        groupMean [⟨1, 2, 10⟩, ⟨1, 3, 12⟩, ⟨2, 1, 11⟩, ⟨3, 1, 20⟩] 1 = some 11 ∧
        ∃ refm, groupMean [⟨1, 2, 10⟩, ⟨1, 3, 12⟩, ⟨2, 1, 11⟩, ⟨3, 1, 20⟩] 1 = some refm ∧
          refm * (9 / 10) ≤ 11 ∧ (11 : ℚ) ≤ refm * (11 / 10))) :=
  (c7_threshold_filter [⟨1, 2, 10⟩, ⟨1, 3, 12⟩, ⟨2, 1, 11⟩, ⟨3, 1, 20⟩] 1).2.1 1 11

/-! Helper lemmas for the toll-rate frame operations. -/

theorem mapE_ok_of_forall {f : Row → Except String Row} :
    ∀ {l : DataFrame}, (∀ r ∈ l, ∃ r', f r = .ok r') →
      ∃ l', mapE f l = .ok l' := by
  intro l
  induction l with
  | nil => intro _; exact ⟨[], rfl⟩
  | cons r rs ih =>
    intro h
    obtain ⟨r', hr'⟩ := h r (List.mem_cons_self ..)
    obtain ⟨rs', hrs'⟩ := ih (fun x hx => h x (List.mem_cons_of_mem _ hx))
    refine ⟨r' :: rs', ?_⟩
    rw [mapE, hr', hrs']

theorem forall₂_trans {α β γ : Type} {R1 : α → β → Prop} {R2 : β → γ → Prop} :
    ∀ {l1 : List α} {l2 : List β} {l3 : List γ},
      List.Forall₂ R1 l1 l2 → List.Forall₂ R2 l2 l3 →
        List.Forall₂ (fun a c => ∃ b, R1 a b ∧ R2 b c) l1 l3 := by
  intro l1 l2 l3 h1
  induction h1 generalizing l3 with
  | nil =>
    intro h2
    cases h2
    exact .nil
  | cons hR _ ih =>
    intro h2
    cases h2 with
    | cons hR2 hs2 => exact .cons ⟨_, hR, hR2⟩ (ih hs2)

/-- Spec-side per-row toll value: `distance * multiplier` when the
looked-up multiplier and the distance are numbers, the missing-value
marker otherwise. -/
def tollSpecVal (v d : Val) : Val :=
  match mapTollRates v, d with
  | .num m, .num q => .num (q * m)
  | _, _ => .nan

def numericOrNaN (d : Val) : Prop :=
  (∃ q, d = Val.num q) ∨ d = Val.nan

def tollWF (df : DataFrame) : Prop :=
  ∀ r ∈ df, (∃ v, getCol r "id_start" = some v) ∧
    (∃ w, getCol r "id_end" = some w) ∧
    (∃ d, getCol r "distance" = some d ∧ numericOrNaN d)

theorem mapTollRates_shape (v : Val) :
    mapTollRates v = Val.nan ∨ ∃ m, mapTollRates v = Val.num m := by
  cases v with
  | str s =>
    cases hl : toll_rates.lookup s with
    | none => exact Or.inl (by simp [mapTollRates, hl])
    | some m => exact Or.inr ⟨m, by simp [mapTollRates, hl]⟩
  | num q => exact Or.inl rfl
  | nan => exact Or.inl rfl
  | ts t => exact Or.inl rfl
  | tod t => exact Or.inl rfl

theorem valMulE_tollSpec (v d val : Val)
    (h : valMulE d (mapTollRates v) = .ok val) : val = tollSpecVal v d := by
  unfold tollSpecVal
  rcases mapTollRates_shape v with hm | ⟨m, hm⟩ <;> rw [hm] at h ⊢ <;>
    cases d <;> simp only [valMulE] at h <;> first
      | (injection h with h; rw [← h])
      | cases h

theorem valMulE_ok_of_wf (d vt : Val) (hd : numericOrNaN d)
    (hvt : vt = Val.nan ∨ ∃ m, vt = Val.num m) :
    ∃ val, valMulE d vt = .ok val := by
  rcases hd with ⟨q, hq⟩ | hq <;> subst hq <;>
    rcases hvt with hm | ⟨m, hm⟩ <;> subst hm <;>
      exact ⟨_, rfl⟩

theorem tollStep1_spec (r0 r1 : Row) (h : tollStep1 r0 = .ok r1) :
    ∃ v, getCol r0 "id_start" = some v ∧
      r1 = setCol r0 "vehicle_type" (mapTollRates v) := by
  unfold tollStep1 at h
  cases hv : getCol r0 "id_start" with
  | none => rw [hv] at h; cases h
  | some v =>
    rw [hv] at h
    injection h with h
    exact ⟨v, rfl, h.symm⟩

theorem tollStep2_spec (r1 r2 : Row) (h : tollStep2 r1 = .ok r2) :
    ∃ d vt val, getCol r1 "distance" = some d ∧
      getCol r1 "vehicle_type" = some vt ∧ valMulE d vt = .ok val ∧
      r2 = setCol r1 "toll_rate" val := by
  unfold tollStep2 at h
  cases hd : getCol r1 "distance" with
  | none => rw [hd] at h; cases h
  | some d =>
    rw [hd] at h
    cases hvt : getCol r1 "vehicle_type" with
    | none => rw [hvt] at h; cases h
    | some vt =>
      rw [hvt] at h
      dsimp only at h
      cases hval : valMulE d vt with
      | error e => rw [hval] at h; cases h
      | ok val =>
        rw [hval] at h
        injection h with h
        exact ⟨d, vt, val, rfl, rfl, hval, h.symm⟩

theorem projectTollCols_spec (r2 r : Row) (h : projectTollCols r2 = .ok r) :
    ∃ a b c, getCol r2 "id_start" = some a ∧ getCol r2 "id_end" = some b ∧
      getCol r2 "toll_rate" = some c ∧
      r = [("id_start", a), ("id_end", b), ("toll_rate", c)] := by
  unfold projectTollCols at h
  cases ha : getCol r2 "id_start" with
  | none => rw [ha] at h; cases h
  | some a =>
    rw [ha] at h
    cases hb : getCol r2 "id_end" with
    | none => rw [hb] at h; cases h
    | some b =>
      rw [hb] at h
      cases hc : getCol r2 "toll_rate" with
      | none => rw [hc] at h; cases h
      | some c =>
        rw [hc] at h
        injection h with h
        exact ⟨a, b, c, rfl, rfl, rfl, h.symm⟩

/-- C6: `calculate_toll_rate` computes each returned row's toll as
`distance * multiplier`, the multiplier looked up from
`{car: 1.0, truck: 1.5, bus: 1.2}` by the row's `id_start`; a row whose
`id_start` is not one of the three keys gets the missing-value marker and
no error is raised (the call succeeds on every well-formed frame,
whatever the `id_start` values are). -/
theorem c6_calculate_toll_rate :
    (∀ df, tollWF df → ∃ res post, calculate_toll_rate df = .ok (res, post)) ∧
    (∀ df res post, calculate_toll_rate df = .ok (res, post) →
      List.Forall₂ (fun r0 r =>
        ∃ v d, getCol r0 "id_start" = some v ∧ getCol r0 "distance" = some d ∧
          getCol r "toll_rate" = some (tollSpecVal v d)) df res) ∧
    (∀ s d, toll_rates.lookup s = none → tollSpecVal (Val.str s) d = Val.nan) ∧
    (∀ s m q, toll_rates.lookup s = some m →
      tollSpecVal (Val.str s) (Val.num q) = Val.num (q * m)) := by
  refine ⟨?_, ?_, ?_, ?_⟩
  · intro df hwf
    have hstep1 : ∀ r ∈ df, ∃ r', tollStep1 r = .ok r' := by
      intro r hr
      obtain ⟨⟨v, hv⟩, _, _⟩ := hwf r hr
      exact ⟨_, by unfold tollStep1; rw [hv]⟩
    obtain ⟨df1, h1⟩ := mapE_ok_of_forall hstep1
    have hf1 := mapE_ok_forall₂ h1
    have hstep2 : ∀ r1 ∈ df1, ∃ r2, tollStep2 r1 = .ok r2 := by
      intro r1 hr1
      obtain ⟨r0, hr0, hs1⟩ := forall₂_mem_right hf1 r1 hr1
      obtain ⟨v, hv, hr1e⟩ := tollStep1_spec r0 r1 hs1
      obtain ⟨_, _, d, hd, hdn⟩ := hwf r0 hr0
      have hdist : getCol r1 "distance" = some d := by
        rw [hr1e, getCol_setCol_ne _ _ (by decide)]
        exact hd
      have hvt : getCol r1 "vehicle_type" = some (mapTollRates v) := by
        rw [hr1e, getCol_setCol_self]
      obtain ⟨val, hval⟩ := valMulE_ok_of_wf d (mapTollRates v) hdn (mapTollRates_shape v)
      refine ⟨setCol r1 "toll_rate" val, ?_⟩
      unfold tollStep2
      rw [hdist, hvt]
      dsimp only
      rw [hval]
      rfl
    obtain ⟨df2, h2⟩ := mapE_ok_of_forall hstep2
    have hf2 := mapE_ok_forall₂ h2
    have hproj : ∀ r2 ∈ df2, ∃ r, projectTollCols r2 = .ok r := by
      intro r2 hr2
      obtain ⟨r1, hr1, hs2⟩ := forall₂_mem_right hf2 r2 hr2
      obtain ⟨r0, hr0, hs1⟩ := forall₂_mem_right hf1 r1 hr1
      obtain ⟨v, hv, hr1e⟩ := tollStep1_spec r0 r1 hs1
      obtain ⟨d, vt, val, hd1, hvt1, hval, hr2e⟩ := tollStep2_spec r1 r2 hs2
      obtain ⟨⟨v', hv'⟩, ⟨w, hw⟩, _⟩ := hwf r0 hr0
      have ha : getCol r2 "id_start" = some v' := by
        rw [hr2e, getCol_setCol_ne _ _ (by decide), hr1e,
          getCol_setCol_ne _ _ (by decide)]
        exact hv'
      have hb : getCol r2 "id_end" = some w := by
        rw [hr2e, getCol_setCol_ne _ _ (by decide), hr1e,
          getCol_setCol_ne _ _ (by decide)]
        exact hw
      have hc : getCol r2 "toll_rate" = some val := by
        rw [hr2e, getCol_setCol_self]
      refine ⟨[("id_start", v'), ("id_end", w), ("toll_rate", val)], ?_⟩
      unfold projectTollCols
      rw [ha, hb, hc]
    obtain ⟨res, h3⟩ := mapE_ok_of_forall hproj
    refine ⟨res, df2, ?_⟩
    unfold calculate_toll_rate
    simp only [h1, h2, h3]
  · intro df res post h
    unfold calculate_toll_rate at h
    cases h1 : mapE tollStep1 df with
    | error e => simp only [h1] at h; cases h
    | ok df1 =>
      simp only [h1] at h
      cases h2 : mapE tollStep2 df1 with
      | error e => simp only [h2] at h; cases h
      | ok df2 =>
        simp only [h2] at h
        cases h3 : mapE projectTollCols df2 with
        | error e => simp only [h3] at h; cases h
        | ok res' =>
          simp only [h3, Except.ok.injEq, Prod.mk.injEq] at h
          obtain ⟨hres, hpost⟩ := h
          subst hres
          subst hpost
          have hcomp := forall₂_trans (forall₂_trans (mapE_ok_forall₂ h1)
            (mapE_ok_forall₂ h2)) (mapE_ok_forall₂ h3)
          apply hcomp.imp
          intro r0 r hrel
          obtain ⟨r2, ⟨r1, hs1, hs2⟩, hs3⟩ := hrel
          obtain ⟨v, hv, hr1e⟩ := tollStep1_spec _ _ hs1
          obtain ⟨d, vt, val, hd1, hvt1, hval, hr2e⟩ := tollStep2_spec _ _ hs2
          obtain ⟨a, b, c, ha, hb, hc, hre⟩ := projectTollCols_spec _ _ hs3
          have hd0 : getCol r0 "distance" = some d := by
            rw [hr1e, getCol_setCol_ne _ _ (by decide)] at hd1
            exact hd1
          have hvt' : vt = mapTollRates v := by
            rw [hr1e, getCol_setCol_self] at hvt1
            injection hvt1 with hvt1
            exact hvt1.symm
          subst hvt'
          have hvspec := valMulE_tollSpec v d val hval
          have hcval : c = val := by
            rw [hr2e, getCol_setCol_self] at hc
            injection hc with hc
            exact hc.symm
          refine ⟨v, d, hv, hd0, ?_⟩
          rw [hre,
            show getCol [("id_start", a), ("id_end", b), ("toll_rate", c)] "toll_rate" =
              some c from rfl,
            hcval, hvspec]
  · intro s d hl
    unfold tollSpecVal
    simp only [mapTollRates, hl]
  · intro s m q hl
    unfold tollSpecVal
    simp only [mapTollRates, hl]

/-- Witness for C6 at a concrete one-row frame (`id_start` is the known
key `truck`, so the toll is `4 * 1.5 = 6`). -/
theorem c6_witness :
    List.Forall₂ (fun r0 r =>
        ∃ v d, getCol r0 "id_start" = some v ∧ getCol r0 "distance" = some d ∧
          getCol r "toll_rate" = some (tollSpecVal v d))
      [[("id_start", Val.str "truck"), ("id_end", Val.str "b"), ("distance", Val.num 4)]]
      [[("id_start", Val.str "truck"), ("id_end", Val.str "b"),
        ("toll_rate", Val.num (4 * (3 / 2)))]] :=
  c6_calculate_toll_rate.2.1
    [[("id_start", Val.str "truck"), ("id_end", Val.str "b"), ("distance", Val.num 4)]]
    [[("id_start", Val.str "truck"), ("id_end", Val.str "b"),
      ("toll_rate", Val.num (4 * (3 / 2)))]]
    [[("id_start", Val.str "truck"), ("id_end", Val.str "b"), ("distance", Val.num 4),
      ("vehicle_type", Val.num (3 / 2)), ("toll_rate", Val.num (4 * (3 / 2)))]]
    (by rfl)

/-- C2 counterexample: `calculate_toll_rate` succeeds but leaves the
caller's frame with two added columns, so the caller-supplied input is
changed by the call. -/
theorem c2_counterexample :
    calculate_toll_rate
        [[("id_start", Val.str "car"), ("id_end", Val.str "x"), ("distance", Val.num 5)]] =
      .ok ([[("id_start", Val.str "car"), ("id_end", Val.str "x"),
              ("toll_rate", Val.num (5 * 1))]],
        [[("id_start", Val.str "car"), ("id_end", Val.str "x"), ("distance", Val.num 5),
          ("vehicle_type", Val.num 1), ("toll_rate", Val.num (5 * 1))]]) ∧
    [[("id_start", Val.str "car"), ("id_end", Val.str "x"), ("distance", Val.num 5),
      ("vehicle_type", Val.num 1), ("toll_rate", Val.num (5 * 1))]] ≠
      [[("id_start", Val.str "car"), ("id_end", Val.str "x"), ("distance", Val.num 5)]] := by
  constructor
  · rfl
  · decide

/-- C2 (amended): the pure list/dict utilities aside, the
DataFrame-consuming operations are not free of externally visible side
effects: `calculate_toll_rate` mutates the caller's frame in place, adding
(or overwriting) the `vehicle_type` and `toll_rate` columns of every row
while preserving every other column's value. -/
theorem c2_dataframe_op_mutates_input :
    ∀ df res post, calculate_toll_rate df = .ok (res, post) →
      List.Forall₂ (fun r0 r2 =>
        hasCol r2 "vehicle_type" = true ∧ hasCol r2 "toll_rate" = true ∧
        ∀ c, c ≠ "vehicle_type" → c ≠ "toll_rate" → getCol r2 c = getCol r0 c) df post := by
  intro df res post h
  unfold calculate_toll_rate at h
  cases h1 : mapE tollStep1 df with
  | error e => simp only [h1] at h; cases h
  | ok df1 =>
    simp only [h1] at h
    cases h2 : mapE tollStep2 df1 with
    | error e => simp only [h2] at h; cases h
    | ok df2 =>
      simp only [h2] at h
      cases h3 : mapE projectTollCols df2 with
      | error e => simp only [h3] at h; cases h
      | ok res' =>
        simp only [h3, Except.ok.injEq, Prod.mk.injEq] at h
        obtain ⟨hres, hpost⟩ := h
        subst hres
        subst hpost
        have hcomp := forall₂_trans (mapE_ok_forall₂ h1) (mapE_ok_forall₂ h2)
        apply hcomp.imp
        intro r0 r2 hrel
        obtain ⟨r1, hs1, hs2⟩ := hrel
        obtain ⟨v, hv, hr1e⟩ := tollStep1_spec _ _ hs1
        obtain ⟨d, vt, val, hd1, hvt1, hval, hr2e⟩ := tollStep2_spec _ _ hs2
        subst hr1e
        subst hr2e
        refine ⟨?_, ?_, ?_⟩
        · simp [hasCol_setCol]
        · simp [hasCol_setCol]
        · intro c hc1 hc2
          rw [getCol_setCol_ne _ _ hc2, getCol_setCol_ne _ _ hc1]

/-- Witness for C2 (amended) at the concrete frame of the counterexample. -/
theorem c2_witness :
    List.Forall₂ (fun r0 r2 =>
        hasCol r2 "vehicle_type" = true ∧ hasCol r2 "toll_rate" = true ∧
        ∀ c, c ≠ "vehicle_type" → c ≠ "toll_rate" → getCol r2 c = getCol r0 c)
      [[("id_start", Val.str "car"), ("id_end", Val.str "x"), ("distance", Val.num 5)]]
      [[("id_start", Val.str "car"), ("id_end", Val.str "x"), ("distance", Val.num 5),
        ("vehicle_type", Val.num 1), ("toll_rate", Val.num (5 * 1))]] :=
  c2_dataframe_op_mutates_input
    [[("id_start", Val.str "car"), ("id_end", Val.str "x"), ("distance", Val.num 5)]]
    [[("id_start", Val.str "car"), ("id_end", Val.str "x"), ("toll_rate", Val.num (5 * 1))]]
    [[("id_start", Val.str "car"), ("id_end", Val.str "x"), ("distance", Val.num 5),
      ("vehicle_type", Val.num 1), ("toll_rate", Val.num (5 * 1))]]
    (by rfl)

/-! Shape lemmas for the date matchers. -/

theorem takeDigitsN_spec {k : Nat} {cs a r : List Char}
    (h : takeDigitsN k cs = some (a, r)) :
    a.length = k ∧ a.all Char.isDigit = true := by
  unfold takeDigitsN at h
  split at h
  · rename_i hc
    simp only [Bool.and_eq_true, decide_eq_true_eq] at hc
    cases h
    exact ⟨hc.1, hc.2⟩
  · cases h

theorem seg3_shape {sep : Char} {l1 l2 l3 : Nat} {cs mat rest : List Char}
    (h : seg3 sep l1 l2 l3 cs = some (mat, rest)) :
    ∃ a b c, mat = a ++ sep :: (b ++ sep :: c) ∧
      a.all Char.isDigit = true ∧ b.all Char.isDigit = true ∧
      c.all Char.isDigit = true ∧ a.length = l1 ∧ b.length = l2 ∧ c.length = l3 := by
  unfold seg3 at h
  cases h1 : takeDigitsN l1 cs with
  | none => rw [h1] at h; cases h
  | some p1 =>
    obtain ⟨a, r1⟩ := p1
    rw [h1] at h
    dsimp only at h
    cases h2 : expectSep sep r1 with
    | none => rw [h2] at h; cases h
    | some r2 =>
      rw [h2] at h
      dsimp only at h
      cases h3 : takeDigitsN l2 r2 with
      | none => rw [h3] at h; cases h
      | some p2 =>
        obtain ⟨b, r3⟩ := p2
        rw [h3] at h
        dsimp only at h
        cases h4 : expectSep sep r3 with
        | none => rw [h4] at h; cases h
        | some r4 =>
          rw [h4] at h
          dsimp only at h
          cases h5 : takeDigitsN l3 r4 with
          | none => rw [h5] at h; cases h
          | some p3 =>
            obtain ⟨c, r5⟩ := p3
            rw [h5] at h
            dsimp only at h
            cases hb : checkBoundary r5 with
            | false => rw [hb] at h; simp at h
            | true =>
              rw [hb] at h
              simp only [if_true] at h
              obtain ⟨ha1, ha2⟩ := takeDigitsN_spec h1
              obtain ⟨hb1, hb2⟩ := takeDigitsN_spec h3
              obtain ⟨hc1, hc2⟩ := takeDigitsN_spec h5
              cases h
              exact ⟨a, b, c, rfl, ha2, hb2, hc2, ha1, hb1, hc1⟩

theorem p1m_shape {cs mat rest : List Char} (h : p1m cs = some (mat, rest)) :
    ∃ a b c, mat = a ++ '-' :: (b ++ '-' :: c) ∧
      a.all Char.isDigit = true ∧ b.all Char.isDigit = true ∧
      c.all Char.isDigit = true ∧ a.length = 2 ∧ b.length = 2 ∧ c.length = 4 :=
  seg3_shape h

theorem p2m_cases {cs mat rest : List Char} (h : p2m cs = some (mat, rest)) :
    seg3 '/' 2 2 4 cs = some (mat, rest) ∨ seg3 '/' 2 1 4 cs = some (mat, rest) ∨
    seg3 '/' 1 2 4 cs = some (mat, rest) ∨ seg3 '/' 1 1 4 cs = some (mat, rest) := by
  unfold p2m at h
  cases h1 : seg3 '/' 2 2 4 cs with
  | some r => rw [h1] at h; injection h with h; exact Or.inl (by rw [h])
  | none =>
    rw [h1] at h
    cases h2 : seg3 '/' 2 1 4 cs with
    | some r => rw [h2] at h; injection h with h; exact Or.inr (Or.inl (by rw [h]))
    | none =>
      rw [h2] at h
      cases h3 : seg3 '/' 1 2 4 cs with
      | some r =>
        rw [h3] at h
        injection h with h
        exact Or.inr (Or.inr (Or.inl (by rw [h])))
      | none =>
        rw [h3] at h
        exact Or.inr (Or.inr (Or.inr h))

theorem p2m_shape {cs mat rest : List Char} (h : p2m cs = some (mat, rest)) :
    ∃ a b c, mat = a ++ '/' :: (b ++ '/' :: c) ∧
      a.all Char.isDigit = true ∧ b.all Char.isDigit = true ∧
      c.all Char.isDigit = true := by
  rcases p2m_cases h with h' | h' | h' | h' <;>
    · obtain ⟨a, b, c, hm, h1, h2, h3, _⟩ := seg3_shape h'
      exact ⟨a, b, c, hm, h1, h2, h3⟩

theorem p3m_cases {cs mat rest : List Char} (h : p3m cs = some (mat, rest)) :
    seg3 '.' 4 2 2 cs = some (mat, rest) ∨ seg3 '.' 4 2 1 cs = some (mat, rest) ∨
    seg3 '.' 4 1 2 cs = some (mat, rest) ∨ seg3 '.' 4 1 1 cs = some (mat, rest) := by
  unfold p3m at h
  cases h1 : seg3 '.' 4 2 2 cs with
  | some r => rw [h1] at h; injection h with h; exact Or.inl (by rw [h])
  | none =>
    rw [h1] at h
    cases h2 : seg3 '.' 4 2 1 cs with
    | some r => rw [h2] at h; injection h with h; exact Or.inr (Or.inl (by rw [h]))
    | none =>
      rw [h2] at h
      cases h3 : seg3 '.' 4 1 2 cs with
      | some r =>
        rw [h3] at h
        injection h with h
        exact Or.inr (Or.inr (Or.inl (by rw [h])))
      | none =>
        rw [h3] at h
        exact Or.inr (Or.inr (Or.inr h))

theorem p3m_shape {cs mat rest : List Char} (h : p3m cs = some (mat, rest)) :
    ∃ a b c, mat = a ++ '.' :: (b ++ '.' :: c) ∧
      a.all Char.isDigit = true ∧ b.all Char.isDigit = true ∧
      c.all Char.isDigit = true := by
  rcases p3m_cases h with h' | h' | h' | h' <;>
    · obtain ⟨a, b, c, hm, h1, h2, h3, _⟩ := seg3_shape h'
      exact ⟨a, b, c, hm, h1, h2, h3⟩

theorem mem_seg3_match {sep x : Char} {a b c : List Char}
    (ha : a.all Char.isDigit = true) (hb : b.all Char.isDigit = true)
    (hc : c.all Char.isDigit = true)
    (hx : x ∈ a ++ sep :: (b ++ sep :: c)) : x.isDigit = true ∨ x = sep := by
  rcases List.mem_append.mp hx with h | h
  · exact Or.inl (List.all_eq_true.mp ha x h)
  · cases h with
    | head => exact Or.inr rfl
    | tail _ h =>
      rcases List.mem_append.mp h with h' | h'
      · exact Or.inl (List.all_eq_true.mp hb x h')
      · cases h' with
        | head => exact Or.inr rfl
        | tail _ h'' => exact Or.inl (List.all_eq_true.mp hc x h'')

theorem contains_true_of_mem {x : Char} {l : List Char} (h : x ∈ l) :
    l.contains x = true := by
  rw [List.contains_iff_exists_mem_beq]
  exact ⟨x, h, by simp⟩

theorem contains_false_of_not_mem {x : Char} {l : List Char} (h : x ∉ l) :
    l.contains x = false := by
  rw [Bool.eq_false_iff]
  intro hc
  rw [List.contains_iff_exists_mem_beq] at hc
  obtain ⟨y, hy, hxy⟩ := hc
  rw [beq_iff_eq] at hxy
  exact h (hxy ▸ hy)

theorem mem_findAllAux {m : List Char → Option (List Char × List Char)} :
    ∀ (fuel : Nat) (prev : Option Char) (cs mat : List Char),
      mat ∈ findAllAux m fuel prev cs → ∃ s r, m s = some (mat, r) := by
  intro fuel
  induction fuel with
  | zero =>
    intro prev cs mat h
    simp only [findAllAux] at h
    cases h
  | succ fuel ih =>
    intro prev cs mat h
    cases cs with
    | nil =>
      simp only [findAllAux] at h
      cases h
    | cons c rest =>
      simp only [findAllAux] at h
      split at h
      · cases hm : m (c :: rest) with
        | some p =>
          obtain ⟨mat', after⟩ := p
          rw [hm] at h
          cases h with
          | head => exact ⟨c :: rest, after, hm⟩
          | tail _ h => exact ih _ _ _ h
        | none =>
          rw [hm] at h
          exact ih _ _ _ h
      · exact ih _ _ _ h

theorem mem_pyFindall {m : List Char → Option (List Char × List Char)}
    {t mat : List Char} (h : mat ∈ pyFindall m t) : ∃ s r, m s = some (mat, r) := by
  unfold pyFindall at h
  exact mem_findAllAux _ _ _ _ h

theorem validate_p1 {cs mat rest : List Char} (h : p1m cs = some (mat, rest)) :
    validateFormat mat = (parseDMY mat).bind (fun p => validNorm p.2.2 p.2.1 p.1) := by
  obtain ⟨a, b, c, hmat, _, _, _, _, _, _⟩ := p1m_shape h
  have hdash : mat.contains '-' = true := by
    apply contains_true_of_mem
    rw [hmat]
    exact List.mem_append_right _ (List.mem_cons_self ..)
  unfold validateFormat
  rw [if_pos hdash]

theorem validate_p2 {cs mat rest : List Char} (h : p2m cs = some (mat, rest)) :
    validateFormat mat = (parseMDY mat).bind (fun p => validNorm p.2.2 p.1 p.2.1) := by
  obtain ⟨a, b, c, hmat, ha, hb, hc⟩ := p2m_shape h
  have hnd : mat.contains '-' = false := by
    apply contains_false_of_not_mem
    intro hmem
    rw [hmat] at hmem
    rcases mem_seg3_match ha hb hc hmem with hd | hs
    · cases hd
    · cases hs
  have hsl : mat.contains '/' = true := by
    apply contains_true_of_mem
    rw [hmat]
    exact List.mem_append_right _ (List.mem_cons_self ..)
  unfold validateFormat
  rw [if_neg (by rw [hnd]; exact Bool.false_ne_true), if_pos hsl]

theorem validate_p3 {cs mat rest : List Char} (h : p3m cs = some (mat, rest)) :
    validateFormat mat = (parseYMD mat).bind (fun p => validNorm p.1 p.2.1 p.2.2) := by
  obtain ⟨a, b, c, hmat, ha, hb, hc⟩ := p3m_shape h
  have hnd : mat.contains '-' = false := by
    apply contains_false_of_not_mem
    intro hmem
    rw [hmat] at hmem
    rcases mem_seg3_match ha hb hc hmem with hd | hs
    · cases hd
    · cases hs
  have hns : mat.contains '/' = false := by
    apply contains_false_of_not_mem
    intro hmem
    rw [hmat] at hmem
    rcases mem_seg3_match ha hb hc hmem with hd | hs
    · cases hd
    · cases hs
  have hdot : mat.contains '.' = true := by
    apply contains_true_of_mem
    rw [hmat]
    exact List.mem_append_right _ (List.mem_cons_self ..)
  unfold validateFormat
  rw [if_neg (by rw [hnd]; exact Bool.false_ne_true),
    if_neg (by rw [hns]; exact Bool.false_ne_true), if_pos hdot]

/-- C8: `find_all_dates` returns the calendar-valid matches normalized to
`yyyy-mm-dd`, grouped by pattern (all `dd-mm-yyyy` regex matches first,
each parsed with `%d-%m-%Y`, then all `m/d/yyyy` matches parsed with
`%m/%d/%Y`, then all `yyyy.m.d` matches parsed with `%Y.%m.%d`), in match
order inside each group, with every match failing calendar validation
silently skipped; in particular
`find_all_dates "Event on 15-08-2023 and 08/15/2023"`
is `["2023-08-15", "2023-08-15"]`. -/
theorem c8_find_all_dates :
    (∀ t : List Char,
      find_all_dates t =
        (pyFindall p1m t).filterMap
          (fun m => (parseDMY m).bind (fun p => validNorm p.2.2 p.2.1 p.1)) ++
        (pyFindall p2m t).filterMap
          (fun m => (parseMDY m).bind (fun p => validNorm p.2.2 p.1 p.2.1)) ++
        (pyFindall p3m t).filterMap
          (fun m => (parseYMD m).bind (fun p => validNorm p.1 p.2.1 p.2.2))) ∧
    find_all_dates ("Event on 15-08-2023 and 08/15/2023".toList) =
      ["2023-08-15".toList, "2023-08-15".toList] := by
  constructor
  · intro t
    unfold find_all_dates
    dsimp only
    rw [List.filterMap_append, List.filterMap_append]
    congr 1
    · congr 1
      · apply List.filterMap_congr
        intro mat hmat
        obtain ⟨s, r, hsr⟩ := mem_pyFindall hmat
        exact validate_p1 hsr
      · apply List.filterMap_congr
        intro mat hmat
        obtain ⟨s, r, hsr⟩ := mem_pyFindall hmat
        exact validate_p2 hsr
    · apply List.filterMap_congr
      intro mat hmat
      obtain ⟨s, r, hsr⟩ := mem_pyFindall hmat
      exact validate_p3 hsr
  · decide
